import Mathlib

/-!
Verification of the traversal, file-reorganization and frontmatter logic of the
Dotfiles repository, shallowly embedded in Lean 4.

Debuggee memory is modelled as a heap: a function from addresses (`Nat`, with
`0` the null pointer) to optional node records; an address outside the heap
(`none`) models an `SBValue` whose dereference is invalid.  Visited sets are
lists of addresses used only through membership, mirroring Python `set` usage.
All colour codes are taken as empty strings (`use_colors = False`), which is
how the GUI-safe code path renders them.
-/

set_option maxHeartbeats 1000000

namespace Dotfiles

/-! ## Linear containers (`LLDB_Formatters/linear.py`)

`LinearContainerProvider.get_summary` walks `next` pointers from `head`,
collecting one value string per node, stopping on null, on a repeated address
(appending a cycle marker) or after `g_summary_max_items` nodes; afterwards it
appends a truncation marker when the walk stopped on a non-null node. -/

namespace Linear

/-- A linked-list node as the formatter reads it from debuggee memory:
the summary string of its value member and the raw pointer stored in its
`next` member. -/
structure LNode where
  value : String
  next : Nat
deriving DecidableEq, Repr

/-- `helpers.g_summary_max_items`. -/
def gSummaryMaxItems : Nat := 30

/-- The marker appended on a repeated address (colours off), `linear.py` line 127. -/
def cycleMarker : String := "[CYCLE DETECTED]"

/-- The `while` loop of `get_summary` (`linear.py` lines 124-140), colours off.
State: current node pointer, iteration count, visited addresses, collected
parts.  Returns the collected parts and the pointer the loop stopped on (the
latter decides the truncation marker at line 150).  Total because each
iteration increments `count`, which the guard bounds by `maxItems`. -/
def summaryLoop (heap : Nat → Option LNode) (maxItems node count : Nat)
    (vis : List Nat) (parts : List String) : List String × Nat :=
  if _h : node ≠ 0 ∧ count < maxItems then
    if node ∈ vis then (parts ++ [cycleMarker], node)
    else
      match heap node with
      | none => (parts, node)
      | some n => summaryLoop heap maxItems n.next (count + 1) (node :: vis) (parts ++ [n.value])
  else (parts, node)
termination_by maxItems - count
decreasing_by simp_wf; omega

/-- The same loop run on explicit fuel: `none` when the iteration budget is
exhausted while the loop guard still holds.  Used to state that the loop
terminates within `maxItems - count` iterations. -/
def summaryLoopFuel (heap : Nat → Option LNode) (maxItems : Nat) :
    Nat → Nat → Nat → List Nat → List String → Option (List String × Nat)
  | 0, _, _, _, _ => none
  | fuel + 1, node, count, vis, parts =>
    if node ≠ 0 ∧ count < maxItems then
      if node ∈ vis then some (parts ++ [cycleMarker], node)
      else
        match heap node with
        | none => some (parts, node)
        | some n =>
          summaryLoopFuel heap maxItems fuel n.next (count + 1) (node :: vis) (parts ++ [n.value])
    else some (parts, node)

/-- The value summary the loop records for address `a` (`get_value_summary` of
the `value` member). -/
def valOf (heap : Nat → Option LNode) (a : Nat) : String :=
  match heap a with
  | some n => n.value
  | none => ""

/-- `heap` holds a well-formed singly-linked list starting at `node` whose
addresses are exactly `l` in order: every address is non-null and
dereferences, each node's `next` points at the rest, and the last `next` is
null. -/
def chainB (heap : Nat → Option LNode) : Nat → List Nat → Bool
  | node, [] => node == 0
  | node, a :: l =>
    node == a && decide (a ≠ 0) &&
      (match heap a with
       | none => false
       | some n => chainB heap n.next l)

/-- `get_summary` (`linear.py` lines 90-153) for a list whose `head`, `next`
and `value` members are recognized, colours off, `is_doubly_linked = False`.
`size` is the value of the size member, `head` the raw head pointer. -/
def getSummary (heap : Nat → Option LNode) (size : Nat) (head : Nat) : String :=
  if head = 0 then "size = " ++ toString size ++ ", []"
  else
    let r := summaryLoop heap gSummaryMaxItems head 0 [] []
    let joined := String.intercalate " -> " r.1
    let final := if r.2 ≠ 0 then joined ++ " -> ..." else joined
    "size = " ++ toString size ++ ", [" ++ final ++ "]"

/-- Heap used by concrete witnesses: a single self-loop at address 5. -/
def heapSelfLoop : Nat → Option LNode := fun a =>
  if a = 5 then some ⟨"x", 5⟩ else none

/-- Heap used by concrete witnesses: the two-node acyclic list 1 -> 2 -> null. -/
def heapTwo : Nat → Option LNode := fun a =>
  if a = 1 then some ⟨"a", 2⟩ else if a = 2 then some ⟨"b", 0⟩ else none

end Linear

/-! ## Trees (`LLDB_Formatters/tree.py`)

The collect helpers `_collect_nodes_preorder` / `_collect_nodes_inorder` /
`_collect_nodes_postorder` walk an arbitrary pointer structure with a shared
visited set.  A node is a value summary together with the ordered list of raw
child pointers its members hold (the non-null among `left`/`right` for a
binary node, the elements of the `children` container for an n-ary one);
`_get_node_children` returns those pointers with nulls dropped.  The Python
recursion has no a-priori bound, so it is embedded with explicit fuel: the
structural results proved below hold for every fuel value. -/

namespace Tree

/-- A tree node as read from debuggee memory. -/
structure TNode where
  value : String
  kids : List Nat
deriving DecidableEq, Repr

/-- `_get_node_children` (`tree.py` lines 316-356): the node's child pointers
in order with null pointers dropped. -/
def getNodeChildren (n : TNode) : List Nat := n.kids.filter (fun c => c ≠ 0)

mutual

/-- `_collect_nodes_preorder` (`tree.py` lines 360-387): null and
already-visited pointers are skipped, the address is marked visited before
dereferencing, the node pointer is appended before the children are walked. -/
def collectPre (heap : Nat → Option TNode) :
    Nat → Nat → List Nat → List Nat → List Nat × List Nat
  | 0, _, ns, vis => (ns, vis)
  | fuel + 1, node, ns, vis =>
    if node = 0 then (ns, vis)
    else if node ∈ vis then (ns, vis)
    else
      match heap node with
      | none => (ns, node :: vis)
      | some n => collectPreKids heap fuel (getNodeChildren n) (ns ++ [node]) (node :: vis)

/-- The `for child in children` loop of `_collect_nodes_preorder`. -/
def collectPreKids (heap : Nat → Option TNode) :
    Nat → List Nat → List Nat → List Nat → List Nat × List Nat
  | _, [], ns, vis => (ns, vis)
  | fuel, c :: cs, ns, vis =>
    let r := collectPre heap fuel c ns vis
    collectPreKids heap fuel cs r.1 r.2

end

mutual

/-- `_collect_nodes_inorder` (`tree.py` lines 389-422): first child's subtree,
then the node, then the remaining children's subtrees. -/
def collectIn (heap : Nat → Option TNode) :
    Nat → Nat → List Nat → List Nat → List Nat × List Nat
  | 0, _, ns, vis => (ns, vis)
  | fuel + 1, node, ns, vis =>
    if node = 0 then (ns, vis)
    else if node ∈ vis then (ns, vis)
    else
      match heap node with
      | none => (ns, node :: vis)
      | some n =>
        match getNodeChildren n with
        | [] => (ns ++ [node], node :: vis)
        | c :: rest =>
          let r := collectIn heap fuel c ns (node :: vis)
          collectInKids heap fuel rest (r.1 ++ [node]) r.2

/-- The `for i in range(1, len(children))` loop of `_collect_nodes_inorder`. -/
def collectInKids (heap : Nat → Option TNode) :
    Nat → List Nat → List Nat → List Nat → List Nat × List Nat
  | _, [], ns, vis => (ns, vis)
  | fuel, c :: cs, ns, vis =>
    let r := collectIn heap fuel c ns vis
    collectInKids heap fuel cs r.1 r.2

end

mutual

/-- `_collect_nodes_postorder` (`tree.py` lines 425-451): children's subtrees
first, the node appended last. -/
def collectPost (heap : Nat → Option TNode) :
    Nat → Nat → List Nat → List Nat → List Nat × List Nat
  | 0, _, ns, vis => (ns, vis)
  | fuel + 1, node, ns, vis =>
    if node = 0 then (ns, vis)
    else if node ∈ vis then (ns, vis)
    else
      match heap node with
      | none => (ns, node :: vis)
      | some n =>
        let r := collectPostKids heap fuel (getNodeChildren n) ns (node :: vis)
        (r.1 ++ [node], r.2)

/-- The `for child in children` loop of `_collect_nodes_postorder`. -/
def collectPostKids (heap : Nat → Option TNode) :
    Nat → List Nat → List Nat → List Nat → List Nat × List Nat
  | _, [], ns, vis => (ns, vis)
  | fuel, c :: cs, ns, vis =>
    let r := collectPost heap fuel c ns vis
    collectPostKids heap fuel cs r.1 r.2

end


/-- The JSON node `_build_json_tree_node` constructs: a `name` and a possibly
empty list of children (the Python dict carries a `children` key only when the
list is non-empty, modelled here by the empty list). -/
inductive JsonTree where
  | node (name : String) (children : List JsonTree)

/-- `MAX_DEPTH` in `_build_json_tree_node`. -/
def maxDepth : Nat := 50

/-- The marker returned once the recursion depth exceeds `MAX_DEPTH`. -/
def depthLimitMsg : String := "[RECURSION DEPTH LIMIT REACHED AT 50]"

/-- The marker returned when a non-null pointer fails to dereference. -/
def derefErrorMsg : String := "[ERROR: Could not dereference node pointer]"

mutual

/-- `_build_json_tree_node` (`tree.py` lines 583-624).  Safety checks in
source order: depth cap first, then null pointer (`none`, which the caller
filters out), then dereference.  There is no visited set: recursion is
bounded only by the depth cap, which is why this definition is total. -/
def buildJsonTreeNode (heap : Nat → Option TNode) (depth nodePtr : Nat) : Option JsonTree :=
  if _h : maxDepth < depth then some (.node depthLimitMsg [])
  else if nodePtr = 0 then none
  else
    match heap nodePtr with
    | none => some (.node derefErrorMsg [])
    | some n => some (.node n.value (buildJsonKids heap (depth + 1) (getNodeChildren n)))
termination_by (maxDepth + 1 - depth, 0)
decreasing_by all_goals simp_wf; omega

/-- The `for child_ptr in children_pointers` loop of `_build_json_tree_node`:
build each child, keeping the non-`None` results. -/
def buildJsonKids (heap : Nat → Option TNode) (depth : Nat) : List Nat → List JsonTree
  | [] => []
  | c :: cs =>
    match buildJsonTreeNode heap depth c with
    | none => buildJsonKids heap depth cs
    | some j => j :: buildJsonKids heap depth cs
termination_by cs => (maxDepth + 1 - depth, cs.length + 1)
decreasing_by all_goals simp_wf; omega

end

mutual

/-- The trace of `buildJsonTreeNode`: the addresses on which the body of
`_build_json_tree_node` runs past its depth and null checks (one entry per
dereference attempt), in execution order.  Same guards, same recursion. -/
def buildJsonVisits (heap : Nat → Option TNode) (depth nodePtr : Nat) : List Nat :=
  if _h : maxDepth < depth then []
  else if nodePtr = 0 then []
  else
    match heap nodePtr with
    | none => [nodePtr]
    | some n => nodePtr :: buildJsonVisitsKids heap (depth + 1) (getNodeChildren n)
termination_by (maxDepth + 1 - depth, 0)
decreasing_by all_goals simp_wf; omega

/-- Trace of the children loop of `_build_json_tree_node`. -/
def buildJsonVisitsKids (heap : Nat → Option TNode) (depth : Nat) : List Nat → List Nat
  | [] => []
  | c :: cs => buildJsonVisits heap depth c ++ buildJsonVisitsKids heap depth cs
termination_by cs => (maxDepth + 1 - depth, cs.length + 1)
decreasing_by all_goals simp_wf; omega

end

mutual

/-- Height of a built JSON tree (a leaf has height 1). -/
def jsonHeight : JsonTree → Nat
  | .node _ kids => jsonHeightList kids + 1

/-- Maximum height over a list of JSON trees. -/
def jsonHeightList : List JsonTree → Nat
  | [] => 0
  | t :: ts => max (jsonHeight t) (jsonHeightList ts)

end

/-- Height of an optional JSON tree (`none`, a filtered-out null child, has
height 0). -/
def jsonHeightOpt : Option JsonTree → Nat
  | none => 0
  | some t => jsonHeight t

/-- `get_tree_json` (`tree.py` lines 628-641): the `root` entry of the JSON
payload handed to the visualizer. -/
def getTreeJson (heap : Nat → Option TNode) (root : Nat) : Option JsonTree :=
  if root = 0 then some (.node "[Empty Tree]" [])
  else buildJsonTreeNode heap 0 root

/-- Heap with a single node at address 1 whose only child pointer is itself:
the smallest cyclic node structure. -/
def heapCycle : Nat → Option TNode := fun a =>
  if a = 1 then some ⟨"a", [1]⟩ else none

/-- The `left`/`right` members of a binary tree node as
`GenericTreeProvider.update` reads them in the non-n-ary branch: `none` when
no member of that name exists, `some a` when the member holds raw pointer
`a`. -/
structure BinMembers where
  left : Option Nat
  right : Option Nat
deriving DecidableEq, Repr

/-- The test `self.left_member and get_raw_pointer(self.left_member) != 0`
used throughout `GenericTreeProvider`. -/
def memPresent : Option Nat → Bool
  | some a => a != 0
  | none => false

/-- `GenericTreeProvider.update` (`tree.py` lines 142-167), binary branch:
the value stored in `num_children_val` and returned by `num_children`. -/
def numChildren (m : BinMembers) : Nat :=
  (if memPresent m.left then 1 else 0) + (if memPresent m.right then 1 else 0)

/-- `GenericTreeProvider.get_child_at_index` (`tree.py` lines 172-188),
binary branch: `some a` models returning the member `SBValue` that holds raw
pointer `a`, `none` the Python `None`. -/
def getChildAtIndex (m : BinMembers) (index : Nat) : Option Nat :=
  if memPresent m.left then
    if index = 0 then m.left
    else if memPresent m.right then
      if index = 1 then m.right else none
    else none
  else if memPresent m.right then
    if index = 0 then m.right else none
  else none

/-- The node's non-null pointer members in the order (left, right). -/
def nonNullMembers (m : BinMembers) : List Nat :=
  (match m.left with
   | some a => if a ≠ 0 then [a] else []
   | none => []) ++
  (match m.right with
   | some a => if a ≠ 0 then [a] else []
   | none => [])

/-- State invariant of one collect step relative to the entry state
`(ns, vis)`: the visited set only grows, any address is appended to the
output list at most once, an address already visited on entry is never
appended, and an address not in the final visited set was never appended. -/
def CollectInv (ns vis : List Nat) (r : List Nat × List Nat) : Prop :=
  (∀ a, a ∈ vis → a ∈ r.2) ∧
  ∀ a : Nat, r.1.count a ≤ ns.count a + 1 ∧
    (a ∈ vis → r.1.count a = ns.count a) ∧
    (a ∉ r.2 → r.1.count a = ns.count a)

end Tree

/-! ## `flatten_dots.py`

`find_payload_root` descends a stow package to the real root of its payload;
`main` copies each package's payload to a flat destination with per-package
conflict handling.  Directories are modelled as finite trees (the setting in
which every directory iteration succeeds), a package's destination as
`Option` of its contents. -/

namespace FlattenDots

/-- A filesystem entry: a file, or a directory with its entries. -/
inductive FSNode where
  | file (name : String)
  | dir (name : String) (children : List FSNode)

/-- The entry's name. -/
def FSNode.name : FSNode → String
  | .file n => n
  | .dir n _ => n

/-- `child.is_dir()`. -/
def FSNode.isDir : FSNode → Bool
  | .file _ => false
  | .dir _ _ => true

/-- `[child for child in current_path.iterdir() if not child.name.startswith('.')]`
(a file has no entries). -/
def nonHidden : FSNode → List FSNode
  | .file _ => []
  | .dir _ children => children.filter (fun c => ¬ c.name.startsWith ".")

/-- `find_payload_root` (`flatten_dots.py` lines 20-39), on a filesystem on
which directory iteration succeeds: descend while the current directory has
exactly one non-hidden entry and that entry is a directory, otherwise stop. -/
def findPayloadRoot (t : FSNode) : FSNode :=
  match h : nonHidden t with
  | [c] => if c.isDir then findPayloadRoot c else t
  | _ => t
termination_by sizeOf t
decreasing_by
  cases t with
  | file n => simp [nonHidden] at h
  | dir n children =>
    have hc : c ∈ children := by
      have hm : c ∈ nonHidden (FSNode.dir n children) := by
        rw [h]; exact List.mem_singleton_self c
      simp only [nonHidden] at hm
      exact List.mem_of_mem_filter hm
    have := List.sizeOf_lt_of_mem hc
    simp only [FSNode.dir.sizeOf_spec]
    omega

/-- One descent step of `find_payload_root`: the only non-hidden entry of `t`
is the directory `c`. -/
def StepsTo (t c : FSNode) : Prop := nonHidden t = [c] ∧ c.isDir = true

/-- `r` is reachable from `t` by repeatedly descending into the single
non-hidden directory entry. -/
inductive Descends : FSNode → FSNode → Prop
  | refl (t : FSNode) : Descends t t
  | step {t c r : FSNode} : StepsTo t c → Descends c r → Descends t r

/-- Lines 92-116 of `flatten_dots.py`: copying the payload into this
package's destination — skipped when the payload is empty or in dry-run
mode, otherwise the destination is created and filled with the payload. -/
def processPayload (dryRun : Bool) (payload : List String)
    (dest : Option (List String)) : Option (List String) :=
  if payload = [] then dest
  else if dryRun then dest
  else some payload

/-- Lines 73-116 of `flatten_dots.py`: processing of one stow package.
`payload` is the contents of the package's payload root, `dest` the state of
this package's final destination directory (`none` = absent, `some c` =
exists with contents `c`).  On a conflict without `--force` the package is
skipped; with `--force` the destination is removed first (unless in dry-run
mode, which stops before any filesystem change). -/
def processPackage (force dryRun : Bool) (payload : List String)
    (dest : Option (List String)) : Option (List String) :=
  match dest with
  | some c =>
    if force then
      processPayload dryRun payload (if dryRun then some c else none)
    else some c
  | none => processPayload dryRun payload none

end FlattenDots

/-! ## `utils/create_stow_dirs.py` -/

namespace CreateStow

/-- `EXCLUDE_DIRS`. -/
def excludeDirs : List String :=
  [".android", ".vscode", "crossnote", "emacs", "fzf-git", "gh", "github-copilot",
   "gtk-2.0", "jgit", "Microsoft", "raycast", "thefuck", "wireshark", "xbuild", "zsh"]

/-- The filesystem effect of processing one source entry: nothing, or the
creation of path `path` filled with contents `content`. -/
inductive StowAction where
  | skip
  | write (path : List String) (content : List String)
deriving DecidableEq, Repr

/-- Processing of one subdirectory of the source by `main`
(`create_stow_dirs.py` lines 55-107): `name` is the directory's name,
`content` its contents, `conflict` whether `target/<name>` already exists,
`userYes` the interactive overwrite answer.  Paths are lists of components;
`.write p c` stands for `p.mkdir(parents=True)` followed by
`shutil.copytree(source, p, dirs_exist_ok=True)`. -/
def processConfigDir (dryRun : Bool) (target : List String) (name : String)
    (content : List String) (conflict userYes : Bool) : StowAction :=
  if name ∈ excludeDirs then .skip
  else
    if conflict then
      if dryRun then .skip
      else if userYes then .write (target ++ [name, ".config", name]) content
      else .skip
    else
      if dryRun then .skip
      else .write (target ++ [name, ".config", name]) content

/-- Modelled from the spec: GNU Stow is not part of this repository; per the
spec's glossary, a stow package maps a file at relative path `p` inside the
package to `home/p` in the user's home directory `home` when the package is
stowed there. -/
def stowTargetPath (home relPath : List String) : List String := home ++ relPath

end CreateStow

/-! ## `update_frontmatter.py`

`FrontmatterProcessor` parses the YAML frontmatter of a Markdown post into a
mapping and repairs it: `update_title_and_date` fills an absent or falsy
`title` (from the file's base name) and `date` (from the current UTC time),
`update_categories` normalizes the `categories` list.  The mapping is
modelled by `FMData`: each scalar field is `none` when absent, `some ""`
standing for any falsy present value; `categories` is absent, a list of
scalars, or a non-list value.  `write_file_atomic` is modelled over a
failure oracle deciding which of its filesystem primitives raises. -/

namespace Frontmatter

/-- Python `str.strip` on the character list (whitespace both ends). -/
def stripChars (l : List Char) : List Char :=
  ((l.dropWhile Char.isWhitespace).reverse.dropWhile Char.isWhitespace).reverse

/-- Python `str.strip`. -/
def pyStrip (s : String) : String := ⟨stripChars s.data⟩

/-- Python `str.title` on the character list: an alphabetic character is
upper-cased after a non-alphabetic one (or at the start) and lower-cased
after an alphabetic one. -/
def titleChars : List Char → Bool → List Char
  | [], _ => []
  | c :: cs, prevAlpha =>
    (if c.isAlpha then (if prevAlpha then c.toLower else c.toUpper) else c) ::
      titleChars cs c.isAlpha

/-- Python `str.title`. -/
def pyTitle (s : String) : String := ⟨titleChars s.data false⟩

/-- Python `str.replace` on character lists: scan left to right, replacing
every (non-overlapping) occurrence of `pat`.  The fuel argument is the
length of the scanned list, enough for the scan to complete. -/
def replaceChars (pat rep : List Char) : Nat → List Char → List Char
  | 0, l => l
  | fuel + 1, l =>
    match l with
    | [] => []
    | c :: rest =>
      if pat ≠ [] ∧ pat.isPrefixOf l then
        rep ++ replaceChars pat rep fuel (l.drop pat.length)
      else c :: replaceChars pat rep fuel rest

/-- Python `str.replace` (all occurrences). -/
def pyReplace (s pat rep : String) : String :=
  ⟨replaceChars pat.data rep.data s.data.length s.data⟩

/-- The default title `update_title_and_date` derives from the file's base
name (`update_frontmatter.py` lines 172-179):
`basename.replace(".md", "").replace("_", " ").replace("-", " ").title()`. -/
def defaultTitle (basename : String) : String :=
  pyTitle (pyReplace (pyReplace (pyReplace basename ".md" "") "_" " ") "-" " ")

/-- A scalar element of the `categories` list: a string, or a value of any
other type (whose exact value the script never uses). -/
inductive YVal where
  | str (s : String)
  | nonstr
deriving DecidableEq, Repr

/-- The `categories` field: absent, a list, or a present non-list value. -/
inductive CatsField where
  | absent
  | clist (vals : List YVal)
  | notList
deriving DecidableEq, Repr

/-- The frontmatter mapping restricted to the fields the script touches. -/
structure FMData where
  title : Option String
  date : Option String
  categories : CatsField
deriving DecidableEq, Repr

/-- `field in data and data[field]` for a scalar field: present and truthy
(`some ""` models any falsy present value). -/
def truthyStr : Option String → Bool
  | none => false
  | some s => s != ""

/-- `update_title_and_date` (`update_frontmatter.py` lines 167-191): fill
`title` from the base name when absent or falsy, then fill `date` with the
current time `now` when absent or falsy; returns the updated data and the
`modified` flag. -/
def updateTitleAndDate (d : FMData) (base now : String) : FMData × Bool :=
  let step1 : FMData × Bool :=
    if truthyStr d.title then (d, false)
    else ({ d with title := some (defaultTitle base) }, true)
  if truthyStr step1.1.date then step1
  else ({ step1.1 with date := some now }, true)

/-- Element-wise Python `==` between the rebuilt string list and the original
scalars (a string never equals a non-string scalar). -/
def yvalEqStr : YVal → String → Bool
  | .str s, t => s == t
  | .nonstr, _ => false

/-- Python list equality `new_categories == original_categories`. -/
def catsListEq : List String → List YVal → Bool
  | [], [] => true
  | s :: ns, v :: os => yvalEqStr v s && catsListEq ns os
  | _, _ => false

/-- The cleaning comprehension of `update_categories` (lines 200-204): keep
the stripped value of every string element whose stripped value is
non-empty. -/
def cleanCats : List YVal → List String
  | [] => []
  | .str s :: rest => if pyStrip s ≠ "" then pyStrip s :: cleanCats rest else cleanCats rest
  | .nonstr :: rest => cleanCats rest

/-- `update_categories` (`update_frontmatter.py` lines 193-224): clean a list
field (deleting it when the cleaned list is empty, keeping the data untouched
when cleaning changes nothing), delete a non-list field, then add the default
`["Uncategorized"]` when the field is absent. -/
def updateCategories (d : FMData) : FMData × Bool :=
  let step1 : FMData × Bool :=
    match d.categories with
    | .clist old =>
      let new := cleanCats old
      if new = [] then ({ d with categories := .absent }, true)
      else if catsListEq new old then (d, false)
      else ({ d with categories := .clist (new.map .str) }, true)
    | .notList => ({ d with categories := .absent }, true)
    | .absent => (d, false)
  match step1.1.categories with
  | .absent => ({ step1.1 with categories := .clist [.str "Uncategorized"] }, true)
  | _ => step1

/-- The frontmatter-present branch of `process_file`
(`update_frontmatter.py` lines 324-342) at the data level: both updates in
order, with the combined `modified` flag.  When the flag is false,
`process_file` performs no write and returns with the file untouched. -/
def processData (d : FMData) (base now : String) : FMData × Bool :=
  let r1 := updateTitleAndDate d base now
  let r2 := updateCategories r1.1
  (r2.1, r2.2 || r1.2)

/-- The points at which a filesystem primitive of `write_file_atomic` can
raise. -/
inductive FailPt where
  | createTemp
  | writeTemp
  | fsyncTemp
  | move
  | cleanup
deriving DecidableEq, Repr

/-- `write_file_atomic` (`update_frontmatter.py` lines 226-253) over a
failure oracle: `fails p = true` means the primitive at point `p` raises.
Result: (returned value, target file content after, leftover temporary file
content after; `some ""` stands for a partially written temporary file).
Faithful detail of the source: `temp_path` is assigned from
`temp_file.name` only after `os.fsync` returns inside the `with` block, so
when creation, write/flush or fsync raises, the `except` handler sees
`temp_path = None` and removes nothing; the temporary file (created with
`delete=False`) stays behind.  Only a failure of `shutil.move` reaches the
unlink, which itself may fail (`except: pass`). -/
def writeFileAtomic (fails : FailPt → Bool) (target : Option String) (content : String) :
    Bool × Option String × Option String :=
  if fails .createTemp then (false, target, none)
  else if fails .writeTemp then (false, target, some "")
  else if fails .fsyncTemp then (false, target, some content)
  else if fails .move then
    (false, target, if fails .cleanup then some content else none)
  else (true, some content, none)

/-- The oracle under which writing to the temporary file raises (for example
a full disk) and every other primitive succeeds. -/
def failsWrite : FailPt → Bool
  | .writeTemp => true
  | _ => false

end Frontmatter

end Dotfiles

namespace Dotfiles

namespace Linear

theorem summaryLoopFuel_eq_of_le (heap : Nat → Option LNode) (maxItems : Nat) :
    ∀ fuel node count vis parts, maxItems - count < fuel →
      summaryLoopFuel heap maxItems fuel node count vis parts =
        some (summaryLoop heap maxItems node count vis parts) := by
  intro fuel
  induction fuel with
  | zero => intro node count vis parts h; omega
  | succ fuel ih =>
    intro node count vis parts h
    rw [summaryLoop]
    by_cases hg : node ≠ 0 ∧ count < maxItems
    · simp only [summaryLoopFuel, if_pos hg, dif_pos hg]
      by_cases hv : node ∈ vis
      · simp [hv]
      · simp only [hv, if_neg, ite_false]
        cases hh : heap node with
        | none => simp [hh]
        | some n =>
          simp only [hh]
          exact ih n.next (count + 1) (node :: vis) (parts ++ [n.value]) (by omega)
    · simp [summaryLoopFuel, hg]

theorem summaryLoop_cycle (heap : Nat → Option LNode) (maxItems node count : Nat)
    (vis : List Nat) (parts : List String) (h0 : node ≠ 0) (hc : count < maxItems)
    (hv : node ∈ vis) :
    summaryLoop heap maxItems node count vis parts = (parts ++ [cycleMarker], node) := by
  rw [summaryLoop]
  simp [h0, hc, hv]

theorem summaryLoop_stop (heap : Nat → Option LNode) (maxItems node count : Nat)
    (vis : List Nat) (parts : List String) (hc : maxItems ≤ count) :
    summaryLoop heap maxItems node count vis parts = (parts, node) := by
  rw [summaryLoop]
  have : ¬ (node ≠ 0 ∧ count < maxItems) := by omega
  simp [this]

/-- C1.  The traversal loop of `LinearContainerProvider.get_summary` terminates
on every heap, cyclic lists included: (1) running it on any fuel budget
exceeding `maxItems - count` completes (never exhausts the budget) and
computes the loop's value, so the loop performs at most `g_summary_max_items`
iterations; (2) as soon as the current address is already in the visited set
the loop stops, appending the `[CYCLE DETECTED]` marker; (3) once `count`
reaches `maxItems` the loop stops. -/
theorem linear_get_summary_terminates (heap : Nat → Option LNode)
    (maxItems fuel node count : Nat) (vis : List Nat) (parts : List String) :
    (maxItems - count < fuel →
      summaryLoopFuel heap maxItems fuel node count vis parts =
        some (summaryLoop heap maxItems node count vis parts)) ∧
    (node ≠ 0 → count < maxItems → node ∈ vis →
      summaryLoop heap maxItems node count vis parts = (parts ++ [cycleMarker], node)) ∧
    (maxItems ≤ count →
      summaryLoop heap maxItems node count vis parts = (parts, node)) :=
  ⟨summaryLoopFuel_eq_of_le heap maxItems fuel node count vis parts,
   fun h0 hc hv => summaryLoop_cycle heap maxItems node count vis parts h0 hc hv,
   fun hc => summaryLoop_stop heap maxItems node count vis parts hc⟩

theorem chainB_nonzero (heap : Nat → Option LNode) :
    ∀ l node, chainB heap node l = true → ∀ a ∈ l, a ≠ 0 := by
  intro l
  induction l with
  | nil => intro node _ a ha; cases ha
  | cons b l ih =>
    intro node h a ha
    simp only [chainB, Bool.and_eq_true, beq_iff_eq, decide_eq_true_eq] at h
    obtain ⟨⟨hnb, hb0⟩, hrest⟩ := h
    cases hh : heap b with
    | none => rw [hh] at hrest; cases hrest
    | some n =>
      rw [hh] at hrest
      rcases List.mem_cons.mp ha with rfl | hmem
      · exact hb0
      · exact ih n.next hrest a hmem

theorem summaryLoop_chain (heap : Nat → Option LNode) (maxItems : Nat) :
    ∀ (l : List Nat) (node count : Nat) (vis : List Nat) (parts : List String),
      chainB heap node l = true → l.Nodup → (∀ a ∈ l, a ∉ vis) → count ≤ maxItems →
      summaryLoop heap maxItems node count vis parts =
        (parts ++ (l.take (maxItems - count)).map (valOf heap),
         (l.drop (maxItems - count)).headD 0) := by
  intro l
  induction l with
  | nil =>
    intro node count vis parts hch _ _ _
    simp only [chainB, beq_iff_eq] at hch
    subst hch
    rw [summaryLoop]
    simp
  | cons a l ih =>
    intro node count vis parts hch hnd hvis hcnt
    simp only [chainB, Bool.and_eq_true, beq_iff_eq, decide_eq_true_eq] at hch
    obtain ⟨⟨rfl, ha0⟩, hrest⟩ := hch
    cases hh : heap node with
    | none => rw [hh] at hrest; cases hrest
    | some n =>
      rw [hh] at hrest
      by_cases hlt : count < maxItems
      · obtain ⟨k, hk⟩ : ∃ k, maxItems - count = k + 1 := ⟨maxItems - count - 1, by omega⟩
        have hk2 : maxItems - (count + 1) = k := by omega
        rw [summaryLoop]
        have hnv : node ∉ vis := hvis node (List.mem_cons_self node l)
        simp only [dif_pos (And.intro ha0 hlt), if_neg hnv, hh]
        rw [ih n.next (count + 1) (node :: vis) (parts ++ [n.value]) hrest
          (List.Nodup.of_cons hnd)
          (by
            intro b hb
            simp only [List.mem_cons, not_or]
            exact ⟨fun hba => (List.nodup_cons.mp hnd).1 (hba ▸ hb),
              hvis b (List.mem_cons_of_mem node hb)⟩)
          (by omega)]
        rw [hk, hk2]
        simp only [List.take_succ_cons, List.drop_succ_cons, List.map_cons]
        rw [List.append_assoc]
        simp [valOf, hh]
      · have hstop : maxItems - count = 0 := by omega
        rw [summaryLoop_stop heap maxItems node count vis parts (by omega), hstop]
        simp

/-- C7.  For a recognized, acyclic singly-linked list whose reachable
addresses are exactly `l`, the summary loop collects at most
`g_summary_max_items = 30` node values (exactly `min |l| 30` of them, the
values of the first nodes), the loop's stopping pointer is non-null — the
condition under which line 150 appends the truncation marker — exactly when
the list has more than 30 reachable nodes, and in that case the summary
string ends with the truncation marker. -/
theorem linear_summary_truncation (heap : Nat → Option LNode) (size head : Nat)
    (l : List Nat) (hch : chainB heap head l = true) (hnd : l.Nodup) :
    (summaryLoop heap gSummaryMaxItems head 0 [] []).1 =
      (l.take 30).map (valOf heap) ∧
    (summaryLoop heap gSummaryMaxItems head 0 [] []).1.length ≤ 30 ∧
    ((summaryLoop heap gSummaryMaxItems head 0 [] []).2 ≠ 0 ↔ 30 < l.length) ∧
    (30 < l.length →
      getSummary heap size head =
        "size = " ++ toString size ++ ", [" ++
          (String.intercalate " -> " ((l.take 30).map (valOf heap)) ++ " -> ...") ++ "]") := by
  have hmain := summaryLoop_chain heap gSummaryMaxItems l head 0 [] []
    hch hnd (by intro a _ h; cases h) (by omega)
  have h30 : gSummaryMaxItems - 0 = 30 := by rfl
  rw [h30] at hmain
  have hparts : (summaryLoop heap gSummaryMaxItems head 0 [] []).1 =
      (l.take 30).map (valOf heap) := by rw [hmain]; simp
  have hstopv : (summaryLoop heap gSummaryMaxItems head 0 [] []).2 =
      (l.drop 30).headD 0 := by rw [hmain]
  have hiff : (summaryLoop heap gSummaryMaxItems head 0 [] []).2 ≠ 0 ↔ 30 < l.length := by
    rw [hstopv]
    constructor
    · intro hne
      by_contra hle
      have : l.drop 30 = [] := List.drop_eq_nil_of_le (by omega)
      rw [this] at hne
      exact hne rfl
    · intro hlen
      cases hd : l.drop 30 with
      | nil =>
        have := List.drop_eq_nil_iff.mp hd
        omega
      | cons b t =>
        have hbmem : b ∈ l := by
          have : b ∈ l.drop 30 := by rw [hd]; exact List.mem_cons_self b t
          exact List.mem_of_mem_drop this
        simp only [hd, List.headD_cons]
        exact chainB_nonzero heap l head hch b hbmem
  refine ⟨hparts, ?_, hiff, ?_⟩
  · rw [hparts]
    simp only [List.length_map, List.length_take]
    omega
  · intro hlen
    have hhead0 : head ≠ 0 := by
      cases l with
      | nil => simp at hlen
      | cons a t =>
        simp only [chainB, Bool.and_eq_true, beq_iff_eq, decide_eq_true_eq] at hch
        obtain ⟨⟨rfl, ha0⟩, _⟩ := hch
        exact ha0
    rw [getSummary]
    simp only [if_neg hhead0]
    rw [hparts] at *
    have htr : (summaryLoop heap gSummaryMaxItems head 0 [] []).2 ≠ 0 := hiff.mpr hlen
    simp only [hparts, if_pos htr, htr, ite_true]

/-- Witness for C7 at a concrete input: the two-node acyclic list 1 -> 2. -/
theorem linear_summary_truncation_witness :
    (summaryLoop heapTwo Linear.gSummaryMaxItems 1 0 [] []).1 =
      ([1, 2].take 30).map (valOf heapTwo) ∧
    (summaryLoop heapTwo Linear.gSummaryMaxItems 1 0 [] []).1.length ≤ 30 ∧
    ((summaryLoop heapTwo Linear.gSummaryMaxItems 1 0 [] []).2 ≠ 0 ↔ 30 < [1, 2].length) ∧
    (30 < [1, 2].length →
      getSummary heapTwo 2 1 =
        "size = " ++ toString 2 ++ ", [" ++
          (String.intercalate " -> " (([1, 2].take 30).map (valOf heapTwo)) ++ " -> ...") ++ "]") :=
  linear_summary_truncation heapTwo 2 1 [1, 2] (by decide) (by decide)

/-- Witness for C1 at concrete inputs: on the self-loop heap the loop detects
the cycle after one step, fuel 31 suffices from a fresh start, and with the
count already at the cap the loop stops at once. -/
theorem linear_get_summary_terminates_witness :
    summaryLoopFuel heapSelfLoop 30 31 5 0 [] [] =
      some (summaryLoop heapSelfLoop 30 5 0 [] []) ∧
    summaryLoop heapSelfLoop 30 5 1 [5] ["x"] = (["x", cycleMarker], 5) ∧
    summaryLoop heapSelfLoop 30 5 30 [] [] = ([], 5) :=
  ⟨(linear_get_summary_terminates heapSelfLoop 30 31 5 0 [] []).1 (by decide),
   (linear_get_summary_terminates heapSelfLoop 30 31 5 1 [5] ["x"]).2.1
     (by decide) (by decide) (by decide),
   (linear_get_summary_terminates heapSelfLoop 30 31 5 30 [] []).2.2 (by decide)⟩

end Linear

end Dotfiles

namespace Dotfiles

namespace Tree

theorem collectInv_rfl (ns vis : List Nat) : CollectInv ns vis (ns, vis) :=
  ⟨fun _ ha => ha, fun a => ⟨Nat.le_succ (ns.count a), fun _ => rfl, fun _ => rfl⟩⟩

theorem collectInv_insert (ns vis : List Nat) (node : Nat) :
    CollectInv ns vis (ns, node :: vis) :=
  ⟨fun _ ha => List.mem_cons_of_mem node ha,
   fun a => ⟨Nat.le_succ (ns.count a), fun _ => rfl, fun _ => rfl⟩⟩

theorem collectInv_trans {ns vis : List Nat} {r1 r2 : List Nat × List Nat}
    (h1 : CollectInv ns vis r1) (h2 : CollectInv r1.1 r1.2 r2) :
    CollectInv ns vis r2 := by
  obtain ⟨s1, c1⟩ := h1
  obtain ⟨s2, c2⟩ := h2
  refine ⟨fun a ha => s2 a (s1 a ha), fun a => ?_⟩
  obtain ⟨b1, m1, n1⟩ := c1 a
  obtain ⟨b2, m2, n2⟩ := c2 a
  by_cases hv1 : a ∈ r1.2
  · have e2 := m2 hv1
    exact ⟨by omega, fun hv => by rw [e2, m1 hv],
      fun hnr => absurd (s2 a hv1) hnr⟩
  · have e1 := n1 hv1
    exact ⟨by omega, fun hv => absurd (s1 a hv) hv1,
      fun hnr => by rw [n2 hnr, e1]⟩

theorem count_append_single (l : List Nat) (node a : Nat) :
    (l ++ [node]).count a = l.count a + if a = node then 1 else 0 := by
  rw [List.count_append]
  congr 1
  by_cases h : a = node
  · subst h; simp
  · rw [if_neg h]
    exact List.count_eq_zero.mpr (by simp [h])

theorem collectInv_mid {node : Nat} {ns vis : List Nat} {r1 r2 : List Nat × List Nat}
    (h0 : node ∉ vis) (h1 : CollectInv ns (node :: vis) r1)
    (h2 : CollectInv (r1.1 ++ [node]) r1.2 r2) : CollectInv ns vis r2 := by
  obtain ⟨s1, c1⟩ := h1
  obtain ⟨s2, c2⟩ := h2
  have hnode1 : node ∈ r1.2 := s1 node (List.mem_cons_self node vis)
  refine ⟨fun a ha => s2 a (s1 a (List.mem_cons_of_mem node ha)), fun a => ?_⟩
  obtain ⟨b1, m1, n1⟩ := c1 a
  obtain ⟨b2, m2, n2⟩ := c2 a
  have hcnt := count_append_single r1.1 node a
  by_cases han : a = node
  · subst han
    have e2 := m2 hnode1
    have e1 := m1 (List.mem_cons_self a vis)
    rw [if_pos rfl] at hcnt
    refine ⟨by omega, fun hv => absurd hv h0,
      fun hnr => absurd (s2 a hnode1) hnr⟩
  · simp only [if_neg han] at hcnt
    by_cases hr1 : a ∈ r1.2
    · have e2 := m2 hr1
      refine ⟨by omega, fun hv => by
        rw [e2, hcnt, m1 (List.mem_cons_of_mem node hv)]; omega,
        fun hnr => absurd (s2 a hr1) hnr⟩
    · have e1 := n1 hr1
      refine ⟨by omega,
        fun hv => absurd (s1 a (List.mem_cons_of_mem node hv)) hr1,
        fun hnr => by rw [n2 hnr, hcnt, e1]; omega⟩

theorem collect_inv_pre (heap : Nat → Option TNode) :
    ∀ fuel, (∀ node ns vis, CollectInv ns vis (collectPre heap fuel node ns vis)) ∧
      (∀ cs ns vis, CollectInv ns vis (collectPreKids heap fuel cs ns vis)) := by
  intro fuel
  induction fuel with
  | zero =>
    have hP : ∀ node ns vis, CollectInv ns vis (collectPre heap 0 node ns vis) := by
      intro node ns vis
      simp only [collectPre]
      exact collectInv_rfl ns vis
    refine ⟨hP, ?_⟩
    intro cs
    induction cs with
    | nil => intro ns vis; simp only [collectPreKids]; exact collectInv_rfl ns vis
    | cons c cs ihc =>
      intro ns vis
      simp only [collectPreKids]
      exact collectInv_trans (hP c ns vis) (ihc _ _)
  | succ fuel ih =>
    obtain ⟨ihP, ihK⟩ := ih
    have hP : ∀ node ns vis, CollectInv ns vis (collectPre heap (fuel + 1) node ns vis) := by
      intro node ns vis
      by_cases h0 : node = 0
      · simp only [collectPre, if_pos h0]; exact collectInv_rfl ns vis
      · by_cases hv : node ∈ vis
        · simp only [collectPre, if_neg h0, if_pos hv]; exact collectInv_rfl ns vis
        · cases hh : heap node with
          | none =>
            simp only [collectPre, if_neg h0, if_neg hv, hh]
            exact collectInv_insert ns vis node
          | some n =>
            simp only [collectPre, if_neg h0, if_neg hv, hh]
            exact collectInv_mid hv (collectInv_rfl ns (node :: vis))
              (ihK (getNodeChildren n) (ns ++ [node]) (node :: vis))
    refine ⟨hP, ?_⟩
    intro cs
    induction cs with
    | nil => intro ns vis; simp only [collectPreKids]; exact collectInv_rfl ns vis
    | cons c cs ihc =>
      intro ns vis
      simp only [collectPreKids]
      exact collectInv_trans (hP c ns vis) (ihc _ _)

theorem collect_inv_in (heap : Nat → Option TNode) :
    ∀ fuel, (∀ node ns vis, CollectInv ns vis (collectIn heap fuel node ns vis)) ∧
      (∀ cs ns vis, CollectInv ns vis (collectInKids heap fuel cs ns vis)) := by
  intro fuel
  induction fuel with
  | zero =>
    have hP : ∀ node ns vis, CollectInv ns vis (collectIn heap 0 node ns vis) := by
      intro node ns vis
      simp only [collectIn]
      exact collectInv_rfl ns vis
    refine ⟨hP, ?_⟩
    intro cs
    induction cs with
    | nil => intro ns vis; simp only [collectInKids]; exact collectInv_rfl ns vis
    | cons c cs ihc =>
      intro ns vis
      simp only [collectInKids]
      exact collectInv_trans (hP c ns vis) (ihc _ _)
  | succ fuel ih =>
    obtain ⟨ihP, ihK⟩ := ih
    have hP : ∀ node ns vis, CollectInv ns vis (collectIn heap (fuel + 1) node ns vis) := by
      intro node ns vis
      by_cases h0 : node = 0
      · simp only [collectIn, if_pos h0]; exact collectInv_rfl ns vis
      · by_cases hv : node ∈ vis
        · simp only [collectIn, if_neg h0, if_pos hv]; exact collectInv_rfl ns vis
        · cases hh : heap node with
          | none =>
            simp only [collectIn, if_neg h0, if_neg hv, hh]
            exact collectInv_insert ns vis node
          | some n =>
            cases hk : getNodeChildren n with
            | nil =>
              simp only [collectIn, if_neg h0, if_neg hv, hh, hk]
              exact collectInv_mid hv (collectInv_rfl ns (node :: vis))
                (collectInv_rfl (ns ++ [node]) (node :: vis))
            | cons c rest =>
              simp only [collectIn, if_neg h0, if_neg hv, hh, hk]
              exact collectInv_mid hv (ihP c ns (node :: vis))
                (ihK rest _ _)
    refine ⟨hP, ?_⟩
    intro cs
    induction cs with
    | nil => intro ns vis; simp only [collectInKids]; exact collectInv_rfl ns vis
    | cons c cs ihc =>
      intro ns vis
      simp only [collectInKids]
      exact collectInv_trans (hP c ns vis) (ihc _ _)

theorem collect_inv_post (heap : Nat → Option TNode) :
    ∀ fuel, (∀ node ns vis, CollectInv ns vis (collectPost heap fuel node ns vis)) ∧
      (∀ cs ns vis, CollectInv ns vis (collectPostKids heap fuel cs ns vis)) := by
  intro fuel
  induction fuel with
  | zero =>
    have hP : ∀ node ns vis, CollectInv ns vis (collectPost heap 0 node ns vis) := by
      intro node ns vis
      simp only [collectPost]
      exact collectInv_rfl ns vis
    refine ⟨hP, ?_⟩
    intro cs
    induction cs with
    | nil => intro ns vis; simp only [collectPostKids]; exact collectInv_rfl ns vis
    | cons c cs ihc =>
      intro ns vis
      simp only [collectPostKids]
      exact collectInv_trans (hP c ns vis) (ihc _ _)
  | succ fuel ih =>
    obtain ⟨ihP, ihK⟩ := ih
    have hP : ∀ node ns vis, CollectInv ns vis (collectPost heap (fuel + 1) node ns vis) := by
      intro node ns vis
      by_cases h0 : node = 0
      · simp only [collectPost, if_pos h0]; exact collectInv_rfl ns vis
      · by_cases hv : node ∈ vis
        · simp only [collectPost, if_neg h0, if_pos hv]; exact collectInv_rfl ns vis
        · cases hh : heap node with
          | none =>
            simp only [collectPost, if_neg h0, if_neg hv, hh]
            exact collectInv_insert ns vis node
          | some n =>
            simp only [collectPost, if_neg h0, if_neg hv, hh]
            exact collectInv_mid hv
              (ihK (getNodeChildren n) ns (node :: vis))
              (collectInv_rfl _ _)
    refine ⟨hP, ?_⟩
    intro cs
    induction cs with
    | nil => intro ns vis; simp only [collectPostKids]; exact collectInv_rfl ns vis
    | cons c cs ihc =>
      intro ns vis
      simp only [collectPostKids]
      exact collectInv_trans (hP c ns vis) (ihc _ _)

/-- C2.  On every pointed-to node structure (cycles and shared nodes
included), each of `_collect_nodes_preorder`, `_collect_nodes_inorder` and
`_collect_nodes_postorder` appends any given node address to the output list
at most once beyond its occurrences on entry, and an address already in the
visited set on entry is never appended at all.  `fuel` bounds the recursion
and is universally quantified, so the property holds however deep the Python
recursion runs. -/
theorem tree_collect_appends_each_address_at_most_once (heap : Nat → Option TNode)
    (fuel node : Nat) (ns vis : List Nat) (a : Nat) :
    ((collectPre heap fuel node ns vis).1.count a ≤ ns.count a + 1 ∧
      (a ∈ vis → (collectPre heap fuel node ns vis).1.count a = ns.count a)) ∧
    ((collectIn heap fuel node ns vis).1.count a ≤ ns.count a + 1 ∧
      (a ∈ vis → (collectIn heap fuel node ns vis).1.count a = ns.count a)) ∧
    ((collectPost heap fuel node ns vis).1.count a ≤ ns.count a + 1 ∧
      (a ∈ vis → (collectPost heap fuel node ns vis).1.count a = ns.count a)) := by
  obtain ⟨-, cP⟩ := (collect_inv_pre heap fuel).1 node ns vis
  obtain ⟨-, cI⟩ := (collect_inv_in heap fuel).1 node ns vis
  obtain ⟨-, cO⟩ := (collect_inv_post heap fuel).1 node ns vis
  obtain ⟨bP, mP, -⟩ := cP a
  obtain ⟨bI, mI, -⟩ := cI a
  obtain ⟨bO, mO, -⟩ := cO a
  exact ⟨⟨bP, mP⟩, ⟨bI, mI⟩, ⟨bO, mO⟩⟩

end Tree

end Dotfiles

namespace Dotfiles

namespace Tree

theorem buildJsonVisits_heapCycle : ∀ k, k ≤ 51 →
    (buildJsonVisits heapCycle (51 - k) 1).count 1 = k := by
  intro k
  induction k with
  | zero =>
    intro _
    rw [buildJsonVisits]
    have hlim : maxDepth < 51 - 0 := by simp [maxDepth]
    rw [dif_pos hlim]
    simp
  | succ k ih =>
    intro hk
    have hd : ¬ (maxDepth < 51 - (k + 1)) := by simp only [maxDepth]; omega
    rw [buildJsonVisits, dif_neg hd]
    have h1 : heapCycle 1 = some ⟨"a", [1]⟩ := rfl
    have hkid : getNodeChildren ⟨"a", [1]⟩ = [1] := rfl
    simp only [h1, hkid, if_neg (one_ne_zero)]
    have hstep : 51 - (k + 1) + 1 = 51 - k := by omega
    simp only [buildJsonVisitsKids, List.append_nil, hstep]
    rw [List.count_cons]
    rw [ih (by omega)]
    simp

/-- C3 counterexample: on the one-node cyclic heap (`heapCycle`: the node at
address 1 holds its own address as its only child pointer) the recursive JSON
build processes address 1 fifty-one times, once per depth 0..50, so the build
does not visit each distinct node address at most once. -/
theorem tree_json_build_revisits_addresses :
    (buildJsonVisits heapCycle 0 1).count 1 = 51 ∧
    ¬ (buildJsonVisits heapCycle 0 1).Nodup := by
  have h := buildJsonVisits_heapCycle 51 (le_refl 51)
  have h0 : (51 : Nat) - 51 = 0 := by omega
  rw [h0] at h
  refine ⟨h, fun hnd => ?_⟩
  have hle := List.nodup_iff_count_le_one.mp hnd 1
  omega

theorem buildJson_height_le (heap : Nat → Option TNode) :
    ∀ k d, d ≤ 51 → 51 - d ≤ k → ∀ p cs,
      jsonHeightOpt (buildJsonTreeNode heap d p) ≤ 52 - d ∧
      jsonHeightList (buildJsonKids heap d cs) ≤ 52 - d := by
  intro k
  induction k with
  | zero =>
    intro d hd51 hk
    have hd : d = 51 := by omega
    subst hd
    have hlim : maxDepth < 51 := by simp [maxDepth]
    have hnode : ∀ p, jsonHeightOpt (buildJsonTreeNode heap 51 p) ≤ 52 - 51 := by
      intro p
      rw [buildJsonTreeNode, dif_pos hlim]
      simp [jsonHeightOpt, jsonHeight, jsonHeightList]
    refine fun p cs => ⟨hnode p, ?_⟩
    induction cs with
    | nil => simp [buildJsonKids, jsonHeightList]
    | cons c cs ihc =>
      rw [buildJsonKids]
      cases hb : buildJsonTreeNode heap 51 c with
      | none => exact ihc
      | some j =>
        simp only [jsonHeightList]
        have hj := hnode c
        rw [hb] at hj
        simp only [jsonHeightOpt] at hj
        exact Nat.max_le.mpr ⟨hj, ihc⟩
  | succ k ih =>
    intro d hd51 hk
    have hnode : ∀ p, jsonHeightOpt (buildJsonTreeNode heap d p) ≤ 52 - d := by
      intro p
      by_cases hlim : maxDepth < d
      · rw [buildJsonTreeNode, dif_pos hlim]
        have : d ≤ 51 := hd51
        simp only [jsonHeightOpt, jsonHeight, jsonHeightList]
        omega
      · have hd50 : d ≤ 50 := by simp only [maxDepth] at hlim; omega
        rw [buildJsonTreeNode, dif_neg hlim]
        by_cases hp : p = 0
        · simp [hp, jsonHeightOpt]
        · simp only [if_neg hp]
          cases hh : heap p with
          | none =>
            simp only [jsonHeightOpt, jsonHeight, jsonHeightList]
            omega
          | some n =>
            simp only [jsonHeightOpt, jsonHeight]
            have hkb := (ih (d + 1) (by omega) (by omega) 0 (getNodeChildren n)).2
            omega
    have hkids : ∀ cs, jsonHeightList (buildJsonKids heap d cs) ≤ 52 - d := by
      intro cs
      induction cs with
      | nil => simp [buildJsonKids, jsonHeightList]
      | cons c cs ihc =>
        rw [buildJsonKids]
        cases hb : buildJsonTreeNode heap d c with
        | none => exact ihc
        | some j =>
          simp only [jsonHeightList]
          have hj := hnode c
          rw [hb] at hj
          simp only [jsonHeightOpt] at hj
          exact Nat.max_le.mpr ⟨hj, ihc⟩
    exact fun p cs => ⟨hnode p, hkids cs⟩

/-- C3 (amended).  The JSON build of `get_tree_json` / `_build_json_tree_node`
terminates on every node structure, cyclic ones included, because recursion is
cut off by the depth cap `MAX_DEPTH = 50`, not by a visited set: past the cap
the build returns the depth-limit marker unconditionally, and consequently the
JSON tree built for any root has height at most 52. -/
theorem tree_json_build_depth_bounded (heap : Nat → Option TNode) (root d p : Nat) :
    jsonHeightOpt (getTreeJson heap root) ≤ 52 ∧
    (maxDepth < d →
      buildJsonTreeNode heap d p = some (.node depthLimitMsg [])) := by
  constructor
  · rw [getTreeJson]
    by_cases hr : root = 0
    · simp [hr, jsonHeightOpt, jsonHeight, jsonHeightList]
    · simp only [if_neg hr]
      have h := (buildJson_height_le heap 51 0 (by omega) (by omega) root []).1
      simpa using h
  · intro hlim
    rw [buildJsonTreeNode, dif_pos hlim]

/-- C6.  `GenericTreeProvider`'s synthetic children are consistent for binary
tree nodes: `num_children` equals the number of non-null pointers among the
node's `left` and `right` members (hence is at most 2), and for every index
`i`, `get_child_at_index i` returns exactly the `i`-th non-null member in the
order (left, right) — in particular it returns a non-`None` child exactly
when `i < num_children`. -/
theorem tree_provider_synthetic_children_consistent (m : BinMembers) (i : Nat) :
    numChildren m = (nonNullMembers m).length ∧
    numChildren m ≤ 2 ∧
    getChildAtIndex m i = (nonNullMembers m)[i]? ∧
    (getChildAtIndex m i ≠ none ↔ i < numChildren m) := by
  obtain ⟨l, r⟩ := m
  rcases l with _ | a <;> rcases r with _ | b
  · simp [numChildren, memPresent, getChildAtIndex, nonNullMembers]
  · by_cases hb : b = 0 <;>
      rcases i with _ | _ | i <;>
      simp [numChildren, memPresent, getChildAtIndex, nonNullMembers, hb]
  · by_cases ha : a = 0 <;>
      rcases i with _ | _ | i <;>
      simp [numChildren, memPresent, getChildAtIndex, nonNullMembers, ha]
  · by_cases ha : a = 0 <;> by_cases hb : b = 0 <;>
      rcases i with _ | _ | i <;>
      simp [numChildren, memPresent, getChildAtIndex, nonNullMembers, ha, hb]

end Tree

end Dotfiles

namespace Dotfiles

namespace FlattenDots

/-- C10.  `find_payload_root` returns the directory reached from its argument
by descending into the child while the current directory has exactly one
non-hidden entry and that entry is a directory (`Descends`), and the returned
directory has no single non-hidden directory entry: any sole non-hidden entry
of the result is not a directory. -/
theorem find_payload_root_descends (t : FSNode) :
    Descends t (findPayloadRoot t) ∧
    ∀ c, nonHidden (findPayloadRoot t) = [c] → c.isDir = false := by
  induction t using findPayloadRoot.induct with
  | case1 t c h hdir ih =>
    rw [findPayloadRoot, h]
    show Descends t (if c.isDir = true then findPayloadRoot c else t) ∧
      ∀ d, nonHidden (if c.isDir = true then findPayloadRoot c else t) = [d] → d.isDir = false
    rw [if_pos hdir]
    exact ⟨Descends.step ⟨h, hdir⟩ ih.1, ih.2⟩
  | case2 t c h hdir =>
    rw [findPayloadRoot, h]
    show Descends t (if c.isDir = true then findPayloadRoot c else t) ∧
      ∀ d, nonHidden (if c.isDir = true then findPayloadRoot c else t) = [d] → d.isDir = false
    rw [if_neg hdir]
    refine ⟨Descends.refl t, fun d hd => ?_⟩
    rw [h] at hd
    cases hd
    simpa using hdir
  | case3 t hne =>
    rcases hnh : nonHidden t with - | ⟨c, - | ⟨c2, rest⟩⟩
    · rw [findPayloadRoot, hnh]
      exact ⟨Descends.refl t, fun d hd => by rw [hnh] at hd; cases hd⟩
    · exact (hne c hnh).elim
    · rw [findPayloadRoot, hnh]
      exact ⟨Descends.refl t, fun d hd => by rw [hnh] at hd; cases hd⟩

/-- C4.  Per-package conflict handling of `flatten_dots.py`: when the final
destination of a package already exists (contents `old`), (1) without
`--force` the package is skipped and the destination is unchanged; (2) in
dry-run mode the destination is unchanged whatever the flags; (3) with
`--force` and dry-run off the existing destination is deleted and then
re-created from the payload (deleted and left absent when the payload is
empty, which skips the copy); (4) hence any change to an existing destination
happens only with `--force` on and dry-run off. -/
theorem flatten_dots_conflict_handling (force dryRun : Bool)
    (payload old : List String) :
    (processPackage false dryRun payload (some old) = some old) ∧
    (processPackage force true payload (some old) = some old) ∧
    (processPackage true false payload (some old) =
      if payload = [] then none else some payload) ∧
    (processPackage force dryRun payload (some old) ≠ some old →
      force = true ∧ dryRun = false) := by
  cases force <;> cases dryRun <;>
    by_cases hp : payload = [] <;>
    simp [processPackage, processPayload, hp]

end FlattenDots

namespace CreateStow

/-- C5.  For a non-excluded source subdirectory `name` with contents
`content`, processed with dry-run off: unless an existing conflicting target
is left in place by the user declining to overwrite, `create_stow_dirs`
copies the contents into `target/<name>/.config/<name>` — the path whose
suffix relative to the package directory `target/<name>` is
`.config/<name>`, so that stowing the package into a home directory `home`
maps the copied files to `home/.config/<name>` (GNU Stow behaviour modelled
from the spec). -/
theorem create_stow_dirs_layout (target : List String) (name : String)
    (content : List String) (conflict userYes : Bool)
    (hexcl : name ∉ excludeDirs) :
    processConfigDir false target name content conflict userYes =
      (if conflict = true ∧ userYes = false then StowAction.skip
       else StowAction.write ((target ++ [name]) ++ [".config", name]) content) ∧
    (∀ home : List String,
      stowTargetPath home [".config", name] = (home ++ [".config"]) ++ [name]) := by
  constructor
  · simp only [processConfigDir, if_neg hexcl]
    cases conflict <;> cases userYes <;> simp [List.append_assoc]
  · intro home
    simp [stowTargetPath]

/-- Witness for C5 at a concrete input: the `kitty` configuration directory,
no conflict. -/
theorem create_stow_dirs_layout_witness :
    (processConfigDir false ["tgt"] "kitty" ["kitty.conf"] false false =
      (if false = true ∧ false = false then StowAction.skip
       else StowAction.write ((["tgt"] ++ ["kitty"]) ++ [".config", "kitty"]) ["kitty.conf"])) ∧
    (∀ home : List String,
      stowTargetPath home [".config", "kitty"] = (home ++ [".config"]) ++ ["kitty"]) :=
  create_stow_dirs_layout ["tgt"] "kitty" ["kitty.conf"] false false (by decide)

end CreateStow

end Dotfiles

namespace Dotfiles

namespace Frontmatter

theorem dropWhile_dropWhile (p : Char → Bool) (l : List Char) :
    (l.dropWhile p).dropWhile p = l.dropWhile p := by
  induction l with
  | nil => rfl
  | cons c cs ih =>
    by_cases hc : p c = true
    · simp [List.dropWhile_cons, hc, ih]
    · simp [List.dropWhile_cons, hc]

theorem dropWhile_length_le (p : Char → Bool) (l : List Char) :
    (l.dropWhile p).length ≤ l.length := by
  induction l with
  | nil => simp
  | cons x xs ih =>
    by_cases hx : p x = true <;> simp [List.dropWhile_cons, hx]
    omega

theorem dropWhile_head_false (p : Char → Bool) (a : Char) (t : List Char)
    (h : (a :: t).dropWhile p = a :: t) : p a = false := by
  cases hpa : p a with
  | false => rfl
  | true =>
    rw [List.dropWhile_cons, if_pos hpa] at h
    have hlen := dropWhile_length_le p t
    rw [h] at hlen
    simp only [List.length_cons] at hlen
    omega

theorem dropWhile_append_single (p : Char → Bool) (a : Char) (ha : p a = false)
    (xs : List Char) : ∃ ys, (xs ++ [a]).dropWhile p = ys ++ [a] := by
  induction xs with
  | nil => exact ⟨[], by simp [List.dropWhile_cons, ha]⟩
  | cons x xs ih =>
    by_cases hx : p x = true
    · simpa [List.dropWhile_cons, hx] using ih
    · exact ⟨x :: xs, by simp [List.dropWhile_cons, hx]⟩

theorem strip_aux_front (p : Char → Bool) (A : List Char) (hA : A.dropWhile p = A) :
    ((A.reverse.dropWhile p).reverse).dropWhile p = (A.reverse.dropWhile p).reverse := by
  cases A with
  | nil => simp
  | cons a t =>
    have hpa : p a = false := dropWhile_head_false p a t hA
    rw [List.reverse_cons]
    obtain ⟨ys, hys⟩ := dropWhile_append_single p a hpa t.reverse
    rw [hys]
    simp [List.reverse_append, List.dropWhile_cons, hpa]

theorem stripChars_idem (l : List Char) : stripChars (stripChars l) = stripChars l := by
  unfold stripChars
  rw [strip_aux_front Char.isWhitespace (l.dropWhile Char.isWhitespace)
    (dropWhile_dropWhile _ _), List.reverse_reverse, dropWhile_dropWhile]

theorem pyStrip_idem (s : String) : pyStrip (pyStrip s) = pyStrip s := by
  show String.mk (stripChars (stripChars s.data)) = String.mk (stripChars s.data)
  rw [stripChars_idem]

theorem catsListEq_eq_map : ∀ (ns : List String) (os : List YVal),
    catsListEq ns os = true → os = ns.map YVal.str := by
  intro ns
  induction ns with
  | nil =>
    intro os h
    cases os with
    | nil => rfl
    | cons v os => simp [catsListEq] at h
  | cons s ns ih =>
    intro os h
    cases os with
    | nil => simp [catsListEq] at h
    | cons v os =>
      simp only [catsListEq, Bool.and_eq_true] at h
      obtain ⟨h1, h2⟩ := h
      cases v with
      | str t =>
        simp only [yvalEqStr, beq_iff_eq] at h1
        subst h1
        simp [ih os h2]
      | nonstr => simp [yvalEqStr] at h1

theorem catsListEq_self : ∀ cs : List String, catsListEq cs (cs.map YVal.str) = true := by
  intro cs
  induction cs with
  | nil => rfl
  | cons c cs ih => simp [catsListEq, yvalEqStr, ih]

theorem cleanCats_mem : ∀ (old : List YVal) (c : String), c ∈ cleanCats old →
    pyStrip c = c ∧ c ≠ "" := by
  intro old
  induction old with
  | nil => intro c hc; cases hc
  | cons v rest ih =>
    intro c hc
    cases v with
    | str s =>
      by_cases hs : pyStrip s ≠ ""
      · simp only [cleanCats, if_pos hs] at hc
        rcases List.mem_cons.mp hc with rfl | hmem
        · exact ⟨pyStrip_idem s, hs⟩
        · exact ih c hmem
      · simp only [cleanCats, if_neg hs] at hc
        exact ih c hc
    | nonstr =>
      simp only [cleanCats] at hc
      exact ih c hc

theorem cleanCats_map_str : ∀ cs : List String, (∀ c ∈ cs, pyStrip c = c ∧ c ≠ "") →
    cleanCats (cs.map YVal.str) = cs := by
  intro cs
  induction cs with
  | nil => intro _; rfl
  | cons c cs ih =>
    intro h
    obtain ⟨hc1, hc2⟩ := h c (List.mem_cons_self c cs)
    have hrest := ih (fun x hx => h x (List.mem_cons_of_mem c hx))
    simp only [List.map_cons, cleanCats, hc1, if_pos hc2, hrest]

theorem uc_good (d : FMData) :
    ∃ cs : List String, (updateCategories d).1.categories = CatsField.clist (cs.map YVal.str) ∧
      cs ≠ [] ∧ ∀ c ∈ cs, pyStrip c = c ∧ c ≠ "" := by
  have hU : pyStrip "Uncategorized" = "Uncategorized" ∧ "Uncategorized" ≠ (("") : String) := by
    constructor
    · decide
    · decide
  rcases hd : d.categories with - | old | -
  · exact ⟨["Uncategorized"], by simp [updateCategories, hd], by simp,
      by intro c hc; rcases List.mem_cons.mp hc with rfl | h
         · exact hU
         · cases h⟩
  · by_cases hnew : cleanCats old = []
    · exact ⟨["Uncategorized"], by simp [updateCategories, hd, hnew], by simp,
        by intro c hc; rcases List.mem_cons.mp hc with rfl | h
           · exact hU
           · cases h⟩
    · by_cases heq : catsListEq (cleanCats old) old = true
      · refine ⟨cleanCats old, ?_, hnew, fun c hc => cleanCats_mem old c hc⟩
        have hmap := catsListEq_eq_map (cleanCats old) old heq
        simp only [updateCategories, hd, if_neg hnew, heq, if_pos trivial]
        simp [hd, ← hmap]
      · refine ⟨cleanCats old, ?_, hnew, fun c hc => cleanCats_mem old c hc⟩
        simp [updateCategories, hd, hnew, heq]
  · exact ⟨["Uncategorized"], by simp [updateCategories, hd], by simp,
      by intro c hc; rcases List.mem_cons.mp hc with rfl | h
         · exact hU
         · cases h⟩

theorem uc_preserves_title_date (d : FMData) :
    (updateCategories d).1.title = d.title ∧ (updateCategories d).1.date = d.date := by
  rcases hd : d.categories with - | old | -
  · simp [updateCategories, hd]
  · by_cases hnew : cleanCats old = []
    · simp [updateCategories, hd, hnew]
    · by_cases heq : catsListEq (cleanCats old) old = true
      · simp [updateCategories, hd, hnew, heq]
      · simp [updateCategories, hd, hnew, heq]
  · simp [updateCategories, hd]

theorem uc_no_change (d : FMData) (cs : List String)
    (hc : d.categories = CatsField.clist (cs.map YVal.str)) (hne : cs ≠ [])
    (hgood : ∀ c ∈ cs, pyStrip c = c ∧ c ≠ "") :
    updateCategories d = (d, false) := by
  have h1 : cleanCats (cs.map YVal.str) = cs := cleanCats_map_str cs hgood
  simp [updateCategories, hc, h1, hne, catsListEq_self]

theorem utd_no_change (d : FMData) (base now : String)
    (ht : truthyStr d.title = true) (hd : truthyStr d.date = true) :
    updateTitleAndDate d base now = (d, false) := by
  simp [updateTitleAndDate, ht, hd]

theorem utd_truthy (d : FMData) (base now : String)
    (hbt : defaultTitle base ≠ "") (hnow : now ≠ "") :
    truthyStr (updateTitleAndDate d base now).1.title = true ∧
    truthyStr (updateTitleAndDate d base now).1.date = true ∧
    (updateTitleAndDate d base now).1.categories = d.categories := by
  by_cases ht : truthyStr d.title = true <;> by_cases hd2 : truthyStr d.date = true <;>
    simp_all [updateTitleAndDate, truthyStr, bne_iff_ne]

/-- C8 counterexample: for the file base name ".md" the default title derived
by the script is the empty string, which Python treats as falsy.  A first run
on a file with empty frontmatter reports a modification (so the run rewrites
the file), and the second run's `update_title_and_date` reports a
modification again — the claim that after a first successful run both update
functions report no change is false. -/
theorem frontmatter_second_run_reports_change :
    (processData ⟨none, none, CatsField.absent⟩ ".md" "2026-01-01T00:00:00Z").2 = true ∧
    (updateTitleAndDate
      (processData ⟨none, none, CatsField.absent⟩ ".md" "2026-01-01T00:00:00Z").1
      ".md" "2026-01-01T00:00:00Z").2 = true := by
  constructor
  · decide
  · decide

/-- C8 (amended).  `process_file` is idempotent at the data level for every
file whose base name yields a non-empty default title (the base name is not
just a stack of ".md" / "_" / "-" pieces, unlike e.g. a file named exactly
".md") and with a non-empty timestamp: after the first run the frontmatter
has a truthy title and date and a non-empty list of stripped categories, so
on a second run `update_title_and_date` and `update_categories` both report
no change and leave the data — hence the file content — unchanged. -/
theorem frontmatter_process_idempotent (d : FMData) (base now now2 : String)
    (hbt : defaultTitle base ≠ "") (hnow : now ≠ "") :
    processData (processData d base now).1 base now2 = ((processData d base now).1, false) := by
  obtain ⟨ht1, hdt1, hcat1⟩ := utd_truthy d base now hbt hnow
  obtain ⟨cs, hcs, hcne, hcgood⟩ := uc_good (updateTitleAndDate d base now).1
  obtain ⟨htp, hdp⟩ := uc_preserves_title_date (updateTitleAndDate d base now).1
  have h1 : (processData d base now).1 =
      (updateCategories (updateTitleAndDate d base now).1).1 := rfl
  rw [h1]
  have htd1 : truthyStr (updateCategories (updateTitleAndDate d base now).1).1.title = true := by
    rw [htp]; exact ht1
  have hdd1 : truthyStr (updateCategories (updateTitleAndDate d base now).1).1.date = true := by
    rw [hdp]; exact hdt1
  have hutd := utd_no_change (updateCategories (updateTitleAndDate d base now).1).1
    base now2 htd1 hdd1
  have huc := uc_no_change (updateCategories (updateTitleAndDate d base now).1).1 cs
    hcs hcne hcgood
  simp [processData, hutd, huc]

/-- Witness for the amended C8 at a concrete input: a post named `post.md`
with empty frontmatter. -/
theorem frontmatter_process_idempotent_witness :
    processData
        (processData ⟨none, none, CatsField.absent⟩ "post.md" "2026-01-01T00:00:00Z").1
        "post.md" "2026-02-02T00:00:00Z" =
      ((processData ⟨none, none, CatsField.absent⟩ "post.md" "2026-01-01T00:00:00Z").1,
        false) :=
  frontmatter_process_idempotent ⟨none, none, CatsField.absent⟩ "post.md"
    "2026-01-01T00:00:00Z" "2026-02-02T00:00:00Z" (by decide) (by decide)

/-- C9 (code bug).  Under the oracle where writing to the temporary file
raises and everything else succeeds, `write_file_atomic` returns `False` with
the target file unchanged — but the temporary file is left behind, not
removed: `temp_path` is assigned from `temp_file.name` only after `os.fsync`
succeeds, so for an exception raised during write/flush/fsync the cleanup
handler sees `temp_path = None` and skips the unlink.  This contradicts the
claim that on any exception the temporary file is removed. -/
theorem write_file_atomic_leaks_temp_on_write_failure :
    writeFileAtomic failsWrite (some "old") "new" = (false, some "old", some "") ∧
    (writeFileAtomic failsWrite (some "old") "new").2.2 ≠ none := by
  constructor
  · decide
  · decide

end Frontmatter

end Dotfiles
